import Mathlib

/-!
Verification of a slice of a parquet-style columnar format engine:
dictionary-page decoding, column descriptors, and statistics-driven
page selection.  Rust sources are shallowly embedded as Lean functions;
bytes are `Nat` (values below 256 in well-formed buffers), machine
integers are `Int`/`Nat`, and fallible operations return `Except`.
-/

namespace Parquet

/-- Compression codecs (`crate::compression::Compression`). -/
inductive Compression
  | Uncompressed | Snappy | Gzip | Lzo | Brotli | Lz4 | Zstd | Lz4Raw
  deriving DecidableEq, Repr

/-- Physical types (`crate::schema::types::PhysicalType`). -/
inductive PhysicalType
  | Boolean | Int32 | Int64 | Int96 | Float | Double | ByteArray
  | FixedLenByteArray (size : Nat)
  deriving DecidableEq, Repr

/-- Modelled from the spec: the error taxonomy of §7 (`crate::error::Error`
is not under src/).  `OutOfSpec` is pinned by
src/page/page_dict/mod.rs; the other variants follow the spec's taxonomy:
corrupt data, invalid caller parameters, and propagated I/O failures. -/
inductive Error
  | OutOfSpec (msg : String)
  | CorruptData (msg : String)
  | InvalidParameter (msg : String)
  | Io (msg : String)
  deriving DecidableEq, Repr

/-- An encoded, uncompressed dictionary page (`EncodedDictPage`). -/
structure EncodedDictPage where
  buffer : List Nat
  num_values : Nat
  deriving DecidableEq, Repr

/-- A decoded dictionary page.  The source's `dyn DictPage` trait objects are
the three concrete implementations `PrimitivePageDict` (typed values plus a
sortedness flag), `BinaryPageDict` (variable-length byte spans) and
`FixedLenByteArrayPageDict` (fixed-size byte groups), modelled as a closed
sum.  Fixed-width numeric values are represented by the little-endian
natural number of their byte chunk. -/
inductive DictPage
  | primitive (physical_type : PhysicalType) (values : List Nat) (is_sorted : Bool)
  | binary (values : List (List Nat))
  | fixedLenBinary (size : Nat) (values : List (List Nat))
  deriving DecidableEq, Repr

/-- The little-endian value of a byte list. -/
def leNat : List Nat → Nat
  | [] => 0
  | b :: bs => b + 256 * leNat bs

/-- Split a buffer into `n` consecutive chunks of `size` bytes each. -/
def takeChunks (size : Nat) : Nat → List Nat → List (List Nat)
  | 0, _ => []
  | n + 1, buf => buf.take size :: takeChunks size n (buf.drop size)

/-- Modelled from the spec: `primitive::read` (src/page/page_dict/primitive.rs
is not under src/): reinterpret the buffer as a flat sequence of fixed-width
little-endian values; the length must equal `size_of * num_values` exactly,
else fail with a corrupt-data error.  The sortedness flag is stored on the
resulting dictionary. -/
def primitive.read (size : Nat) (t : PhysicalType) (buf : List Nat)
    (num_values : Nat) (is_sorted : Bool) : Except Error DictPage :=
  if buf.length = size * num_values then
    .ok (.primitive t ((takeChunks size num_values buf).map leNat) is_sorted)
  else
    .error (.CorruptData "primitive dictionary page size mismatch")

/-- Read a 4-byte little-endian length prefix, returning it with the rest of
the buffer. -/
def readLE4 : List Nat → Option (Nat × List Nat)
  | b0 :: b1 :: b2 :: b3 :: rest =>
      some (b0 + 256 * b1 + 65536 * b2 + 16777216 * b3, rest)
  | _ => none

/-- Parse `n` records of (4-byte little-endian length, value bytes); fails if
any record would read past the end of the buffer. -/
def parseBinaryValues : Nat → List Nat → Option (List (List Nat) × List Nat)
  | 0, buf => some ([], buf)
  | n + 1, buf =>
    match readLE4 buf with
    | none => none
    | some (len, rest) =>
      if len ≤ rest.length then
        match parseBinaryValues n (rest.drop len) with
        | none => none
        | some (vs, rest₂) => some (rest.take len :: vs, rest₂)
      else none

/-- Modelled from the spec: `binary::read` (src/page/page_dict/binary.rs is
not under src/): the buffer is a concatenation of
(4-byte little-endian length, value bytes) records, exactly `num_values` of
them, decoded into an index of byte spans; exceeding the buffer bound fails
with a corrupt-data error.  Note the source call site passes no sortedness
flag to this decoder. -/
def binary.read (buf : List Nat) (num_values : Nat) : Except Error DictPage :=
  match parseBinaryValues num_values buf with
  | some (vs, _) => .ok (.binary vs)
  | none => .error (.CorruptData "binary dictionary page out of bounds")

/-- Modelled from the spec: `fixed_len_binary::read`
(src/page/page_dict/fixed_len_binary.rs is not under src/): the buffer is a
flat concatenation of `num_values` fixed-size chunks; the buffer length must
equal `size * num_values`, else fail.  The source call site passes no
sortedness flag to this decoder. -/
def fixed_len_binary.read (buf : List Nat) (size : Nat) (num_values : Nat) :
    Except Error DictPage :=
  if buf.length = size * num_values then
    .ok (.fixedLenBinary size (takeChunks size num_values buf))
  else
    .error (.CorruptData "fixed-length dictionary page size mismatch")

/-- `deserialize` from src/page/page_dict/mod.rs: dispatch on the physical
type.  Booleans are rejected as out-of-spec; fixed-width numeric types go to
the primitive decoder with their byte width (4, 8, 12, 4, 8); byte arrays and
fixed-length byte arrays go to their decoders, which receive no sortedness
flag. -/
def deserialize (buf : List Nat) (num_values : Nat) (is_sorted : Bool)
    (physical_type : PhysicalType) : Except Error DictPage :=
  match physical_type with
  | .Boolean =>
      .error (.OutOfSpec "Boolean physical type cannot be dictionary-encoded")
  | .Int32 => primitive.read 4 .Int32 buf num_values is_sorted
  | .Int64 => primitive.read 8 .Int64 buf num_values is_sorted
  | .Int96 => primitive.read 12 .Int96 buf num_values is_sorted
  | .Float => primitive.read 4 .Float buf num_values is_sorted
  | .Double => primitive.read 8 .Double buf num_values is_sorted
  | .ByteArray => binary.read buf num_values
  | .FixedLenByteArray size => fixed_len_binary.read buf size num_values

/-- Modelled from the spec: the external compression capability of §6
(`crate::compression::decompress` is not under src/):
`decompress(codec, input, output) -> Result` receives a pre-allocated output
buffer, and must fill it completely or fail.  It is a pluggable dependency,
so the embedding abstracts over it. -/
def Adapter : Type :=
  Compression → List Nat → List Nat → Except Error (List Nat)

/-- `read_dict_page` from src/page/page_dict/mod.rs: when the codec is not
`Uncompressed`, allocate a zeroed output buffer of exactly the declared
uncompressed size, run the decompression adapter, and deserialize its result;
otherwise deserialize the page's raw buffer directly. -/
def read_dict_page (decompress : Adapter) (page : EncodedDictPage)
    (compression : Compression × Nat) (is_sorted : Bool)
    (physical_type : PhysicalType) : Except Error DictPage :=
  if compression.1 ≠ Compression.Uncompressed then
    match decompress compression.1 page.buffer (List.replicate compression.2 0) with
    | .ok decompressed => deserialize decompressed page.num_values is_sorted physical_type
    | .error e => .error e
  else
    deserialize page.buffer page.num_values is_sorted physical_type

/-- Whether a decode result is an ok value. -/
def resultIsOk : Except Error DictPage → Bool
  | .ok _ => true
  | .error _ => false

/-- The sortedness metadata stored on a decoded dictionary, when any.  Only
`PrimitivePageDict` carries such a flag; the binary and fixed-length
dictionaries have no sortedness field. -/
def dictIsSorted : DictPage → Option Bool
  | .primitive _ _ s => some s
  | _ => none

/-- Number of decoded values held by a decoded dictionary. -/
def dictLen : DictPage → Nat
  | .primitive _ vs _ => vs.length
  | .binary vs => vs.length
  | .fixedLenBinary _ vs => vs.length

/-- Forget the sortedness metadata of a decoded dictionary. -/
def eraseSorted : DictPage → DictPage
  | .primitive t vs _ => .primitive t vs false
  | d => d

/-- The fixed-width numeric physical types, routed to the primitive
decoder. -/
def isFixedWidthNumeric : PhysicalType → Bool
  | .Int32 | .Int64 | .Int96 | .Float | .Double => true
  | _ => false

/-- The 4-byte little-endian encoding of a length. -/
def encodeLE4 (n : Nat) : List Nat :=
  [n % 256, n / 256 % 256, n / 65536 % 256, n / 16777216 % 256]

/-- Serialize byte spans as consecutive (4-byte little-endian length,
value bytes) records — the inverse format of `binary.read`. -/
def encodeBinary : List (List Nat) → List Nat
  | [] => []
  | v :: vs => encodeLE4 v.length ++ v ++ encodeBinary vs

/-- Modelled from the spec: the schema-tree node of a leaf column
(`crate::schema::types::ParquetType` is not under src/; only its name
accessor is needed by `ColumnDescriptor`). -/
structure ParquetType where
  name : String
  deriving DecidableEq, Repr

/-- `ColumnDescriptor` from src/metadata/column_descriptor.rs: leaf-level
column description.  Maximum levels are `i16` in the source, embedded as
`Int`. -/
structure ColumnDescriptor where
  primitive_type : ParquetType
  max_def_level : Int
  max_rep_level : Int
  path_in_schema : List String
  root : ParquetType
  deriving DecidableEq, Repr

/-- `ColumnDescriptor::new`: stores the five arguments unchanged, with no
validation. -/
def ColumnDescriptor.new (primitive_type : ParquetType) (max_def_level : Int)
    (max_rep_level : Int) (path_in_schema : List String) (root : ParquetType) :
    ColumnDescriptor :=
  { primitive_type, max_def_level, max_rep_level, path_in_schema, root }

/-- `ColumnDescriptor::type_`: the leaf's own type. -/
def ColumnDescriptor.type_ (c : ColumnDescriptor) : ParquetType :=
  c.primitive_type

/-- `ColumnDescriptor::name`: the name of the leaf's primitive type. -/
def ColumnDescriptor.name (c : ColumnDescriptor) : String :=
  c.primitive_type.name

/-- `PageLocation` of the offset index: absolute byte offset, compressed
size, and first row ordinal of a page.  Offsets, sizes and row ordinals are
non-negative in any valid file, embedded as `Nat`. -/
structure PageLocation where
  offset : Nat
  compressed_page_size : Nat
  first_row_index : Nat
  deriving DecidableEq, Repr

/-- A row interval `[start, start + length)`. -/
structure Interval where
  start : Nat
  length : Nat
  deriving DecidableEq, Repr

/-- A page selected by `select_pages`: its location together with the full
row interval covered by the page. -/
structure FilteredPage where
  location : PageLocation
  rows : Interval
  deriving DecidableEq, Repr

/-- Non-empty intersection of two half-open row intervals. -/
def intervalIntersects (a b : Interval) : Bool :=
  decide (a.start < b.start + b.length) && decide (b.start < a.start + a.length)

/-- Walk the location list pairing each page with its covered row interval
`[first_row_index, next page's first_row_index)`, the last page bounded by
`total_rows`. -/
def coveredPages : List PageLocation → Nat → List (PageLocation × Interval)
  | [], _ => []
  | [l], total_rows =>
      [(l, ⟨l.first_row_index, total_rows - l.first_row_index⟩)]
  | l₁ :: l₂ :: rest, total_rows =>
      (l₁, ⟨l₁.first_row_index, l₂.first_row_index - l₁.first_row_index⟩) ::
        coveredPages (l₂ :: rest) total_rows

/-- The covered row interval of page `i`, directly by index. -/
def pageInterval (locations : List PageLocation) (total_rows : Nat) (i : Nat) :
    Interval :=
  match locations.get? i with
  | none => ⟨0, 0⟩
  | some l =>
    match locations.get? (i + 1) with
    | none => ⟨l.first_row_index, total_rows - l.first_row_index⟩
    | some l₂ => ⟨l.first_row_index, l₂.first_row_index - l.first_row_index⟩

/-- Modelled from the spec: `select_pages` (§4.3; `crate::indexes` is not
under src/, only its caller in tests/it/write/indexes.rs).  Validates that no
requested interval is zero-length or out of range and that `total_rows` is
not smaller than the last page's first row index, then walks the location
list once and keeps exactly the pages whose covered interval intersects some
requested interval, each paired with its full covered interval, in file
order. -/
def select_pages (requested : List Interval) (locations : List PageLocation)
    (total_rows : Nat) : Except Error (List FilteredPage) :=
  if requested.any (fun r =>
      decide (r.length = 0) || decide (total_rows < r.start + r.length)) then
    .error (.InvalidParameter "malformed requested interval")
  else if (match locations.getLast? with
      | some l => decide (total_rows < l.first_row_index)
      | none => false) then
    .error (.InvalidParameter "total_rows smaller than last first_row_index")
  else
    .ok (((coveredPages locations total_rows).filter (fun li =>
      requested.any (fun r => intervalIntersects li.2 r))).map
        (fun li => ⟨li.1, li.2⟩))

/-- Whether a decode result is an out-of-spec error. -/
def resultIsOutOfSpec : Except Error DictPage → Bool
  | .error (.OutOfSpec _) => true
  | _ => false

/-- Boundary-order flag of a column index. -/
inductive BoundaryOrder
  | Unordered | Ascending | Descending
  deriving DecidableEq, Repr

/-- `PageIndex`: per-page min/max/null-count statistics; `none` means
unknown, never a null value. -/
structure PageIndex where
  min : Option Int
  max : Option Int
  null_count : Option Int
  deriving DecidableEq, Repr

/-- `NativeIndex`: a column chunk's ordered page statistics plus the
boundary-order flag. -/
structure NativeIndex where
  indexes : List PageIndex
  boundary_order : BoundaryOrder
  deriving DecidableEq, Repr

/-- Number of nulls among a page's values. -/
def nullCount (vals : List (Option Int)) : Nat :=
  (vals.filter Option.isNone).length

/-- Minimum of a page's non-null values, if any. -/
def pageMin (vals : List (Option Int)) : Option Int :=
  (vals.filterMap id).foldl (fun acc v =>
    match acc with
    | none => some v
    | some m => some (Min.min m v)) none

/-- Maximum of a page's non-null values, if any. -/
def pageMax (vals : List (Option Int)) : Option Int :=
  (vals.filterMap id).foldl (fun acc v =>
    match acc with
    | none => some v
    | some m => some (Max.max m v)) none

/-- Modelled from the spec: the writer's column index for a chunk, as in the
worked example of §8.7 and tests/it/write/indexes.rs — per-page min, max and
null count computed from the page's values, with the boundary order declared
`Unordered`. -/
def computeColumnIndex (pages : List (List (Option Int))) : NativeIndex :=
  { indexes := pages.map (fun p =>
      ⟨pageMin p, pageMax p, some (Int.ofNat (nullCount p))⟩),
    boundary_order := .Unordered }

/-- Modelled from the spec: the caller-side clipping of §4.3 — after decoding
a whole selected page covering `covered`, keep only the values whose row
ordinals fall in the requested interval. -/
def clipPage (vals : List (Option Int)) (covered req : Interval) :
    List (Option Int) :=
  let lo := Max.max covered.start req.start
  let hi := Min.min (covered.start + covered.length) (req.start + req.length)
  (vals.drop (lo - covered.start)).take (hi - lo)

/-- Page A of the worked example: rows [0,7). -/
def pageA : List (Option Int) :=
  [some 0, some 1, none, some 3, some 4, some 5, some 6]

/-- Page B of the worked example: rows [7,9). -/
def pageB : List (Option Int) := [some 10, some 11]

/-- Offset-index entry of page A, as asserted in
tests/it/write/indexes.rs. -/
def locA : PageLocation := ⟨4, 63, 0⟩

/-- Offset-index entry of page B, as asserted in
tests/it/write/indexes.rs. -/
def locB : PageLocation := ⟨67, 47, 7⟩

/-- A decompression adapter instance that always fails, as the spec's
contract for the external capability permits. -/
def failingAdapter : Adapter :=
  fun _ _ _ => .error (.Io "underlying decompression failed")

/-- A decompression adapter instance that returns its input unchanged. -/
def identityAdapter : Adapter :=
  fun _ input _ => .ok input

theorem takeChunks_length (size n : Nat) :
    ∀ buf : List Nat, (takeChunks size n buf).length = n := by
  induction n with
  | zero => intro buf; rfl
  | succ n ih =>
    intro buf
    simp [takeChunks, ih]

theorem parseBinaryValues_length :
    ∀ (n : Nat) (buf : List Nat) (vs : List (List Nat)) (rest : List Nat),
      parseBinaryValues n buf = some (vs, rest) → vs.length = n := by
  intro n
  induction n with
  | zero =>
    intro buf vs rest h
    simp [parseBinaryValues] at h
    simp [h.1]
  | succ n ih =>
    intro buf vs rest h
    unfold parseBinaryValues at h
    cases hr : readLE4 buf with
    | none => rw [hr] at h; exact absurd h (by simp)
    | some p =>
      obtain ⟨len, after⟩ := p
      rw [hr] at h
      by_cases hlen : len ≤ after.length
      · simp only [hlen, if_pos] at h
        cases hp : parseBinaryValues n (after.drop len) with
        | none => rw [hp] at h; exact absurd h (by simp)
        | some q =>
          obtain ⟨vs', rest'⟩ := q
          rw [hp] at h
          simp only [Option.some.injEq, Prod.mk.injEq] at h
          obtain ⟨hvs, -⟩ := h
          subst hvs
          simp [ih _ _ _ hp]
      · simp [hlen] at h

/-- C1 as stated is refuted: with a non-`Uncompressed` codec the adapter's
failure is propagated by `read_dict_page` before the physical-type dispatch,
so the returned error is the adapter's I/O error, not the out-of-spec
error. -/
theorem read_dict_page_boolean_counterexample :
    read_dict_page failingAdapter ⟨[0], 1⟩ (Compression.Gzip, 4) true
        PhysicalType.Boolean =
      .error (.Io "underlying decompression failed") ∧
    resultIsOutOfSpec (read_dict_page failingAdapter ⟨[0], 1⟩
        (Compression.Gzip, 4) true PhysicalType.Boolean) = false := by
  exact ⟨rfl, rfl⟩

/-- C1 (amended): for every adapter, buffer, value count, sortedness flag and
compression setting, `read_dict_page` with the Boolean physical type never
returns a decoded dictionary; when the codec is `Uncompressed`, and whenever
the adapter decompresses successfully, the error returned is the out-of-spec
error. -/
theorem read_dict_page_boolean_rejected (A : Adapter) (page : EncodedDictPage)
    (comp : Compression × Nat) (s : Bool) :
    (∀ d, read_dict_page A page comp s PhysicalType.Boolean ≠ .ok d) ∧
    (comp.1 = Compression.Uncompressed →
      read_dict_page A page comp s PhysicalType.Boolean =
        .error (.OutOfSpec "Boolean physical type cannot be dictionary-encoded")) ∧
    (∀ buf, A comp.1 page.buffer (List.replicate comp.2 0) = .ok buf →
      read_dict_page A page comp s PhysicalType.Boolean =
        .error (.OutOfSpec "Boolean physical type cannot be dictionary-encoded")) := by
  refine ⟨?_, ?_, ?_⟩
  · intro d h
    unfold read_dict_page at h
    by_cases hc : comp.1 ≠ Compression.Uncompressed
    · rw [if_pos hc] at h
      cases hA : A comp.1 page.buffer (List.replicate comp.2 0) with
      | ok buf => rw [hA] at h; exact absurd h (by simp [deserialize])
      | error e => rw [hA] at h; exact absurd h (by simp)
    · rw [if_neg hc] at h
      exact absurd h (by simp [deserialize])
  · intro hc
    unfold read_dict_page
    rw [if_neg (by simp [hc])]
    rfl
  · intro buf hA
    unfold read_dict_page
    by_cases hc : comp.1 ≠ Compression.Uncompressed
    · rw [if_pos hc, hA]
      rfl
    · rw [if_neg hc]
      rfl

/-- C1 witness: the amended theorem applied at a concrete page, flag and
codec. -/
theorem read_dict_page_boolean_rejected_witness :
    read_dict_page failingAdapter ⟨[], 0⟩ (Compression.Uncompressed, 0) true
        PhysicalType.Boolean =
      .error (.OutOfSpec "Boolean physical type cannot be dictionary-encoded") :=
  (read_dict_page_boolean_rejected failingAdapter ⟨[], 0⟩
      (Compression.Uncompressed, 0) true).2.1 rfl

/-- C2: with a non-`Uncompressed` codec, `read_dict_page` allocates an output
buffer of exactly `uncompressed_size` bytes, invokes the adapter on the
page's buffer, and decodes its result; with codec `Uncompressed`, it decodes
the raw buffer directly and the result does not depend on the adapter at
all. -/
theorem read_dict_page_compression_path (A : Adapter) (page : EncodedDictPage)
    (c : Compression) (sz : Nat) (s : Bool) (t : PhysicalType) :
    (c ≠ Compression.Uncompressed →
      (List.replicate sz (0 : Nat)).length = sz ∧
      read_dict_page A page (c, sz) s t =
        match A c page.buffer (List.replicate sz 0) with
        | .ok d => deserialize d page.num_values s t
        | .error e => .error e) ∧
    (c = Compression.Uncompressed →
      read_dict_page A page (c, sz) s t =
        deserialize page.buffer page.num_values s t ∧
      ∀ B : Adapter,
        read_dict_page B page (c, sz) s t = read_dict_page A page (c, sz) s t) := by
  constructor
  · intro hc
    refine ⟨List.length_replicate _ _, ?_⟩
    unfold read_dict_page
    rw [if_pos hc]
  · intro hc
    subst hc
    constructor
    · unfold read_dict_page
      rw [if_neg (by simp)]
    · intro B
      unfold read_dict_page
      rw [if_neg (by simp), if_neg (by simp)]

/-- C2 witness: both branches of the theorem at concrete inputs — a Gzip
page decoded through the identity adapter, and an uncompressed page decoded
directly. -/
theorem read_dict_page_compression_path_witness :
    ((List.replicate 4 (0 : Nat)).length = 4 ∧
      read_dict_page identityAdapter ⟨[7, 0, 0, 0], 1⟩ (Compression.Gzip, 4)
          true PhysicalType.Int32 =
        match identityAdapter Compression.Gzip [7, 0, 0, 0]
            (List.replicate 4 0) with
        | .ok d => deserialize d 1 true PhysicalType.Int32
        | .error e => .error e) ∧
    (read_dict_page identityAdapter ⟨[7, 0, 0, 0], 1⟩
        (Compression.Uncompressed, 4) true PhysicalType.Int32 =
      deserialize [7, 0, 0, 0] 1 true PhysicalType.Int32) :=
  ⟨(read_dict_page_compression_path identityAdapter ⟨[7, 0, 0, 0], 1⟩
      Compression.Gzip 4 true PhysicalType.Int32).1 (by simp),
   ((read_dict_page_compression_path identityAdapter ⟨[7, 0, 0, 0], 1⟩
      Compression.Uncompressed 4 true PhysicalType.Int32).2 rfl).1⟩

/-- C10: with codec `Uncompressed` the result of `read_dict_page` is
independent of both the declared uncompressed size and the adapter, and
equals decoding the raw buffer directly — no validation of the declared size
against the buffer's length takes place. -/
theorem read_dict_page_uncompressed_size_ignored (A B : Adapter)
    (page : EncodedDictPage) (sz₁ sz₂ : Nat) (s : Bool) (t : PhysicalType) :
    read_dict_page A page (Compression.Uncompressed, sz₁) s t =
      read_dict_page B page (Compression.Uncompressed, sz₂) s t ∧
    read_dict_page A page (Compression.Uncompressed, sz₁) s t =
      deserialize page.buffer page.num_values s t := by
  constructor <;> rfl

/-- C8: every accessor of a descriptor built by `ColumnDescriptor::new`
returns exactly the corresponding constructor argument, and `name` returns
the primitive type's name; in this pure embedding the accessors are
projections, so they always succeed and cannot mutate the descriptor. -/
theorem column_descriptor_accessors (pt : ParquetType) (d r : Int)
    (path : List String) (root : ParquetType) :
    (ColumnDescriptor.new pt d r path root).max_def_level = d ∧
    (ColumnDescriptor.new pt d r path root).max_rep_level = r ∧
    (ColumnDescriptor.new pt d r path root).path_in_schema = path ∧
    (ColumnDescriptor.new pt d r path root).type_ = pt ∧
    (ColumnDescriptor.new pt d r path root).name = pt.name :=
  ⟨rfl, rfl, rfl, rfl, rfl⟩

/-- C9 as stated is refuted: `ColumnDescriptor::new` performs no validation,
so it accepts a negative definition level, a negative repetition level and an
empty path, producing a descriptor that violates the claimed invariant. -/
theorem column_descriptor_invariant_counterexample :
    (ColumnDescriptor.new ⟨"col1"⟩ (-1) (-1) [] ⟨"schema"⟩).max_def_level < 0 ∧
    (ColumnDescriptor.new ⟨"col1"⟩ (-1) (-1) [] ⟨"schema"⟩).max_rep_level < 0 ∧
    (ColumnDescriptor.new ⟨"col1"⟩ (-1) (-1) [] ⟨"schema"⟩).path_in_schema = [] :=
  ⟨by decide, by decide, rfl⟩

/-- C9 (amended): `new` stores its arguments unchanged, so the constructed
descriptor satisfies the invariant (non-negative maximum levels, non-empty
path) exactly when the caller supplies non-negative levels and a non-empty
path. -/
theorem column_descriptor_invariant_of_valid_args (pt root : ParquetType)
    (d r : Int) (path : List String) (hd : 0 ≤ d) (hr : 0 ≤ r)
    (hp : path ≠ []) :
    0 ≤ (ColumnDescriptor.new pt d r path root).max_def_level ∧
    0 ≤ (ColumnDescriptor.new pt d r path root).max_rep_level ∧
    (ColumnDescriptor.new pt d r path root).path_in_schema ≠ [] :=
  ⟨hd, hr, hp⟩

/-- C9 witness: the amended theorem at a concrete valid argument tuple. -/
theorem column_descriptor_invariant_witness :
    0 ≤ (ColumnDescriptor.new ⟨"col1"⟩ 1 0 ["col1"] ⟨"schema"⟩).max_def_level ∧
    0 ≤ (ColumnDescriptor.new ⟨"col1"⟩ 1 0 ["col1"] ⟨"schema"⟩).max_rep_level ∧
    (ColumnDescriptor.new ⟨"col1"⟩ 1 0 ["col1"] ⟨"schema"⟩).path_in_schema ≠ [] :=
  column_descriptor_invariant_of_valid_args ⟨"col1"⟩ ⟨"schema"⟩ 1 0 ["col1"]
    (by decide) (by decide) (by simp)

/-- C3 as stated is refuted: the byte-array decoder is called without the
sortedness flag (src/page/page_dict/mod.rs line 90 passes only the buffer
and value count), so a successfully decoded byte-array dictionary carries no
sortedness metadata at all. -/
theorem is_sorted_metadata_counterexample :
    deserialize [1, 0, 0, 0, 65] 1 true PhysicalType.ByteArray =
      .ok (.binary [[65]]) ∧
    dictIsSorted (.binary [[65]]) = none :=
  ⟨rfl, rfl⟩

/-- C3 (amended): the decoded values never depend on `is_sorted` (results for
the two flag settings agree once sortedness metadata is erased); for the
fixed-width numeric types the flag is stored as metadata on the decoded
dictionary, while for the byte-array and fixed-length byte-array types the
flag is discarded and the result is identical for both settings. -/
theorem is_sorted_metadata (buf : List Nat) (n : Nat) (s₁ s₂ : Bool)
    (t : PhysicalType) :
    (deserialize buf n s₁ t).map eraseSorted =
      (deserialize buf n s₂ t).map eraseSorted ∧
    (isFixedWidthNumeric t = true →
      ∀ d, deserialize buf n s₁ t = .ok d → dictIsSorted d = some s₁) ∧
    (isFixedWidthNumeric t = false →
      deserialize buf n s₁ t = deserialize buf n s₂ t) := by
  refine ⟨?_, ?_, ?_⟩
  · cases t <;>
      simp only [deserialize, primitive.read, binary.read, fixed_len_binary.read] <;>
      first
      | rfl
      | (split <;> rfl)
  · intro hfw d h
    cases t <;> simp [isFixedWidthNumeric] at hfw <;>
      · simp only [deserialize, primitive.read] at h
        split at h
        · cases h
          rfl
        · cases h
  · intro hfw
    cases t <;> simp [isFixedWidthNumeric] at hfw <;> rfl

/-- C3 witness: the amended theorem at a concrete fixed-width input, showing
the flag stored on the decoded primitive dictionary. -/
theorem is_sorted_metadata_witness :
    dictIsSorted (DictPage.primitive PhysicalType.Int32 [7] true) = some true :=
  (is_sorted_metadata [7, 0, 0, 0] 1 true false PhysicalType.Int32).2.1 rfl
    (DictPage.primitive PhysicalType.Int32 [7] true) rfl

/-- C4: whenever `deserialize` (hence `read_dict_page`) succeeds, the decoded
dictionary holds exactly `num_values` values, for every physical type. -/
theorem dict_len_eq_num_values (buf : List Nat) (n : Nat) (s : Bool)
    (t : PhysicalType) (d : DictPage) (h : deserialize buf n s t = .ok d) :
    dictLen d = n := by
  cases t <;> simp only [deserialize] at h
  case Boolean => cases h
  case ByteArray =>
    unfold binary.read at h
    cases hp : parseBinaryValues n buf with
    | none => rw [hp] at h; cases h
    | some q =>
      obtain ⟨vs, rest⟩ := q
      rw [hp] at h
      cases h
      simpa [dictLen] using parseBinaryValues_length n buf vs rest hp
  case FixedLenByteArray size =>
    unfold fixed_len_binary.read at h
    split at h
    · cases h
      simp [dictLen, takeChunks_length]
    · cases h
  all_goals
    unfold primitive.read at h
    split at h
    · cases h
      simp [dictLen, takeChunks_length]
    · cases h

/-- C4 witness: the theorem at a concrete 32-bit integer dictionary page. -/
theorem dict_len_eq_num_values_witness :
    dictLen (DictPage.primitive PhysicalType.Int32 [7] false) = 1 :=
  dict_len_eq_num_values [7, 0, 0, 0] 1 false PhysicalType.Int32
    (DictPage.primitive PhysicalType.Int32 [7] false) rfl

/-- C7: the worked example — requesting interval {start 2, length 2} against
the two page locations of the written file (page A rows [0,7) at offset 4,
page B rows [7,9) at offset 67) selects only page A with its full covered
interval; decoding page A and clipping to the request yields [null, 3]; and
the per-page statistics of the column index are min 0 / max 6 / one null for
page A, min 10 / max 11 / no nulls for page B, with boundary order
Unordered. -/
theorem worked_example :
    select_pages [⟨2, 2⟩] [locA, locB] 9 = .ok [⟨locA, ⟨0, 7⟩⟩] ∧
    clipPage pageA ⟨0, 7⟩ ⟨2, 2⟩ = [none, some 3] ∧
    computeColumnIndex [pageA, pageB] =
      ⟨[⟨some 0, some 6, some 1⟩, ⟨some 10, some 11, some 0⟩], .Unordered⟩ := by
  refine ⟨rfl, by decide, by decide⟩

theorem leNat4_round (n : Nat) (h : n < 4294967296) :
    n % 256 + 256 * (n / 256 % 256) + 65536 * (n / 65536 % 256) +
      16777216 * (n / 16777216 % 256) = n := by
  omega

theorem encodeLE4_leNat (b0 b1 b2 b3 : Nat) (h0 : b0 < 256) (h1 : b1 < 256)
    (h2 : b2 < 256) (h3 : b3 < 256) :
    encodeLE4 (b0 + 256 * b1 + 65536 * b2 + 16777216 * b3) = [b0, b1, b2, b3] := by
  simp only [encodeLE4, List.cons.injEq, and_true]
  omega

theorem readLE4_sound (buf : List Nat) (len : Nat) (after : List Nat)
    (hb : ∀ b ∈ buf, b < 256) (h : readLE4 buf = some (len, after)) :
    buf = encodeLE4 len ++ after ∧ len < 4294967296 := by
  match buf with
  | [] => simp [readLE4] at h
  | [_] => simp [readLE4] at h
  | [_, _] => simp [readLE4] at h
  | [_, _, _] => simp [readLE4] at h
  | b0 :: b1 :: b2 :: b3 :: rest =>
    simp only [readLE4, Option.some.injEq, Prod.mk.injEq] at h
    obtain ⟨hlen, hafter⟩ := h
    have h0 : b0 < 256 := hb b0 (by simp)
    have h1 : b1 < 256 := hb b1 (by simp)
    have h2 : b2 < 256 := hb b2 (by simp)
    have h3 : b3 < 256 := hb b3 (by simp)
    subst hafter
    constructor
    · rw [← hlen, encodeLE4_leNat b0 b1 b2 b3 h0 h1 h2 h3]
      rfl
    · omega

theorem parseBinaryValues_encode :
    ∀ (vs : List (List Nat)) (rest : List Nat),
      (∀ v ∈ vs, v.length < 4294967296) →
      parseBinaryValues vs.length (encodeBinary vs ++ rest) = some (vs, rest) := by
  intro vs
  induction vs with
  | nil => intro rest _; rfl
  | cons v vs ih =>
    intro rest h
    have hv : v.length < 4294967296 := h v (by simp)
    have hrest : ∀ w ∈ vs, w.length < 4294967296 := fun w hw => h w (by simp [hw])
    have hlen := leNat4_round v.length hv
    show parseBinaryValues (vs.length + 1) (encodeBinary (v :: vs) ++ rest) = _
    unfold parseBinaryValues
    simp only [encodeBinary, encodeLE4, List.append_assoc, List.cons_append,
      List.nil_append, readLE4, hlen]
    rw [if_pos (by simp)]
    rw [List.take_left, List.drop_left, ih rest hrest]

theorem parseBinaryValues_sound :
    ∀ (n : Nat) (buf : List Nat) (vs : List (List Nat)) (rest : List Nat),
      (∀ b ∈ buf, b < 256) →
      parseBinaryValues n buf = some (vs, rest) →
      buf = encodeBinary vs ++ rest ∧ ∀ v ∈ vs, v.length < 4294967296 := by
  intro n
  induction n with
  | zero =>
    intro buf vs rest _ h
    simp only [parseBinaryValues, Option.some.injEq, Prod.mk.injEq] at h
    obtain ⟨h1, h2⟩ := h
    subst h1; subst h2
    exact ⟨rfl, by simp⟩
  | succ n ih =>
    intro buf vs rest hb h
    unfold parseBinaryValues at h
    cases hr : readLE4 buf with
    | none => rw [hr] at h; cases h
    | some p =>
      obtain ⟨len, after⟩ := p
      rw [hr] at h
      dsimp only at h
      obtain ⟨hbuf, hlen32⟩ := readLE4_sound buf len after hb hr
      by_cases hle : len ≤ after.length
      · rw [if_pos hle] at h
        cases hp : parseBinaryValues n (after.drop len) with
        | none => rw [hp] at h; cases h
        | some q =>
          obtain ⟨vs', rest'⟩ := q
          rw [hp] at h
          simp only [Option.some.injEq, Prod.mk.injEq] at h
          obtain ⟨hvs, hrest⟩ := h
          have hafter_mem : ∀ b ∈ after, b < 256 := by
            intro b hbm
            exact hb b (by rw [hbuf]; exact List.mem_append_right _ hbm)
          have hb' : ∀ b ∈ after.drop len, b < 256 := fun b hbm =>
            hafter_mem b (List.mem_of_mem_drop hbm)
          obtain ⟨hafter, hbound⟩ := ih (after.drop len) vs' rest' hb' hp
          subst hvs; subst hrest
          have htake : (after.take len).length = len := by
            rw [List.length_take]; omega
          constructor
          · calc buf = encodeLE4 len ++ after := hbuf
              _ = encodeLE4 len ++ (after.take len ++ after.drop len) := by
                    rw [List.take_append_drop]
              _ = encodeLE4 len ++ (after.take len ++ (encodeBinary vs' ++ rest')) := by
                    rw [hafter]
              _ = encodeBinary (after.take len :: vs') ++ rest' := by
                    simp [encodeBinary, htake, List.append_assoc]
          · intro v hv
            rcases List.mem_cons.mp hv with hv | hv
            · subst hv
              omega
            · exact hbound v hv
      · rw [if_neg hle] at h
        cases h

/-- C5: for the variable-length byte-array physical type, a buffer that is
exactly `num_values` records of a 4-byte little-endian length followed by
that many value bytes (possibly followed by trailing bytes) decodes to the
index of exactly those `num_values` byte spans; every successful decode
arises this way; and when no such record decomposition exists, decoding
fails with the corrupt-data error. -/
theorem byte_array_decode (buf : List Nat) (n : Nat) (s : Bool)
    (hb : ∀ b ∈ buf, b < 256) :
    (∀ vs rest, vs.length = n → buf = encodeBinary vs ++ rest →
      (∀ v ∈ vs, v.length < 4294967296) →
      deserialize buf n s PhysicalType.ByteArray = .ok (.binary vs)) ∧
    (∀ d, deserialize buf n s PhysicalType.ByteArray = .ok d →
      ∃ vs rest, d = .binary vs ∧ vs.length = n ∧
        buf = encodeBinary vs ++ rest) ∧
    ((¬ ∃ vs rest, vs.length = n ∧ buf = encodeBinary vs ++ rest ∧
        ∀ v ∈ vs, v.length < 4294967296) →
      deserialize buf n s PhysicalType.ByteArray =
        .error (.CorruptData "binary dictionary page out of bounds")) := by
  refine ⟨?_, ?_, ?_⟩
  · intro vs rest hlen hbuf hbound
    subst hlen
    simp only [deserialize, binary.read]
    rw [hbuf, parseBinaryValues_encode vs rest hbound]
  · intro d h
    simp only [deserialize, binary.read] at h
    cases hp : parseBinaryValues n buf with
    | none => rw [hp] at h; cases h
    | some q =>
      obtain ⟨vs, rest⟩ := q
      rw [hp] at h
      cases h
      exact ⟨vs, rest, rfl, parseBinaryValues_length n buf vs rest hp,
        (parseBinaryValues_sound n buf vs rest hb hp).1⟩
  · intro hne
    simp only [deserialize, binary.read]
    cases hp : parseBinaryValues n buf with
    | none => rfl
    | some q =>
      obtain ⟨vs, rest⟩ := q
      exact absurd ⟨vs, rest, parseBinaryValues_length n buf vs rest hp,
        (parseBinaryValues_sound n buf vs rest hb hp).1,
        (parseBinaryValues_sound n buf vs rest hb hp).2⟩ hne

/-- C5 witness: the theorem's completeness part at a concrete two-record
buffer. -/
theorem byte_array_decode_witness :
    deserialize [1, 0, 0, 0, 65, 2, 0, 0, 0, 66, 67] 2 true
        PhysicalType.ByteArray =
      .ok (.binary [[65], [66, 67]]) :=
  (byte_array_decode [1, 0, 0, 0, 65, 2, 0, 0, 0, 66, 67] 2 true
      (by decide)).1 [[65], [66, 67]] [] (by decide) (by decide) (by decide)

theorem any_of_perm {α : Type} {l₁ l₂ : List α} (h : l₁.Perm l₂)
    (p : α → Bool) : l₁.any p = l₂.any p := by
  cases hb : l₂.any p with
  | true =>
    rw [List.any_eq_true] at hb ⊢
    obtain ⟨a, ha, hpa⟩ := hb
    exact ⟨a, h.mem_iff.mpr ha, hpa⟩
  | false =>
    rw [List.any_eq_false] at hb ⊢
    intro a ha
    exact hb a (h.mem_iff.mp ha)

theorem coveredPages_map_fst :
    ∀ (locations : List PageLocation) (total_rows : Nat),
      (coveredPages locations total_rows).map Prod.fst = locations := by
  intro locations
  induction locations with
  | nil => intro t; rfl
  | cons l ls ih =>
    intro t
    cases ls with
    | nil => rfl
    | cons l₂ rest =>
      simp only [coveredPages, List.map_cons, ih t]

theorem coveredPages_getElem? :
    ∀ (locations : List PageLocation) (total_rows i : Nat),
      (coveredPages locations total_rows)[i]? =
        (locations[i]?).map (fun l => (l, pageInterval locations total_rows i)) := by
  intro locations
  induction locations with
  | nil => intro t i; simp [coveredPages]
  | cons l ls ih =>
    intro t i
    cases ls with
    | nil =>
      cases i with
      | zero => simp [coveredPages, pageInterval]
      | succ j => simp [coveredPages]
    | cons l₂ rest =>
      cases i with
      | zero => simp [coveredPages, pageInterval]
      | succ j =>
        simp only [coveredPages, List.getElem?_cons_succ]
        rw [ih t j]
        rfl

theorem mem_coveredPages {locations : List PageLocation} {total_rows : Nat}
    {x : PageLocation × Interval} :
    x ∈ coveredPages locations total_rows ↔
      ∃ i : Nat, locations[i]? = some x.1 ∧
        x.2 = pageInterval locations total_rows i := by
  obtain ⟨a, b⟩ := x
  dsimp only
  rw [List.mem_iff_getElem?]
  constructor
  · rintro ⟨i, hi⟩
    rw [coveredPages_getElem?] at hi
    cases hl : locations[i]? with
    | none => rw [hl] at hi; cases hi
    | some l =>
      rw [hl, Option.map_some'] at hi
      obtain ⟨h1, h2⟩ := Prod.mk.injEq .. ▸ Option.some.inj hi
      exact ⟨i, by rw [hl, h1], h2.symm⟩
  · rintro ⟨i, hl, hb⟩
    refine ⟨i, ?_⟩
    rw [coveredPages_getElem?, hl, Option.map_some', hb]

/-- C6: under the claim's preconditions (strictly ascending non-overlapping
requested intervals that are non-empty and in range, locations strictly
ascending in offset and first row index, and a consistent `total_rows`),
`select_pages` succeeds; a page appears in the output exactly when its
covered interval — from its first row index to the next page's, the last
bounded by `total_rows` — intersects some requested interval; each output
entry carries that full covered interval; the output is strictly ascending
in offset; and permuting the requested intervals leaves the output
unchanged. -/
theorem select_pages_spec (requested : List Interval)
    (locations : List PageLocation) (total_rows : Nat)
    (hreq_sorted : requested.Pairwise (fun a b => a.start + a.length ≤ b.start))
    (hreq_valid : ∀ r ∈ requested, 0 < r.length ∧ r.start + r.length ≤ total_rows)
    (hloc : locations.Pairwise (fun a b =>
      a.offset < b.offset ∧ a.first_row_index < b.first_row_index))
    (htot : ∀ l ∈ locations, l.first_row_index ≤ total_rows) :
    ∃ out, select_pages requested locations total_rows = .ok out ∧
      (∀ p : FilteredPage, p ∈ out ↔ ∃ i : Nat,
        locations[i]? = some p.location ∧
        p.rows = pageInterval locations total_rows i ∧
        ∃ r ∈ requested,
          intervalIntersects (pageInterval locations total_rows i) r = true) ∧
      out.Pairwise (fun p q => p.location.offset < q.location.offset) ∧
      (∀ requested' : List Interval, requested'.Perm requested →
        select_pages requested' locations total_rows =
          select_pages requested locations total_rows) := by
  have hval1 : requested.any (fun r =>
      decide (r.length = 0) || decide (total_rows < r.start + r.length)) = false := by
    rw [List.any_eq_false]
    intro r hr
    obtain ⟨h1, h2⟩ := hreq_valid r hr
    simp only [Bool.or_eq_true, decide_eq_true_eq, not_or]
    omega
  have hval2 : (match locations.getLast? with
      | some l => decide (total_rows < l.first_row_index)
      | none => false) = false := by
    cases hgl : locations.getLast? with
    | none => rfl
    | some l =>
      have hmem : l ∈ locations := by
        obtain ⟨hne, heq⟩ := List.mem_getLast?_eq_getLast (l := locations) hgl
        rw [heq]
        exact List.getLast_mem hne
      simp only [decide_eq_false_iff_not, not_lt]
      exact htot l hmem
  have hout : select_pages requested locations total_rows =
      .ok (((coveredPages locations total_rows).filter (fun li =>
        requested.any (fun r => intervalIntersects li.2 r))).map
          (fun li => ⟨li.1, li.2⟩)) := by
    unfold select_pages
    rw [hval1, hval2]
    rfl
  refine ⟨_, hout, ?_, ?_, ?_⟩
  · intro p
    constructor
    · intro hp
      rw [List.mem_map] at hp
      obtain ⟨li, hli, hgp⟩ := hp
      rw [List.mem_filter] at hli
      obtain ⟨hmem, hpred⟩ := hli
      rw [mem_coveredPages] at hmem
      obtain ⟨i, hl, hiv⟩ := hmem
      rw [List.any_eq_true] at hpred
      obtain ⟨r, hr, hint⟩ := hpred
      subst hgp
      exact ⟨i, hl, hiv, r, hr, by rw [← hiv]; exact hint⟩
    · rintro ⟨i, hl, hrows, r, hr, hint⟩
      rw [List.mem_map]
      refine ⟨(p.location, p.rows), ?_, rfl⟩
      rw [List.mem_filter]
      refine ⟨?_, ?_⟩
      · rw [mem_coveredPages]
        exact ⟨i, hl, hrows⟩
      · rw [List.any_eq_true]
        exact ⟨r, hr, by rw [hrows]; exact hint⟩
  · have h2 : (coveredPages locations total_rows).Pairwise
        (fun a b => a.1.offset < b.1.offset) := by
      have hl' := hloc
      rw [← coveredPages_map_fst locations total_rows, List.pairwise_map] at hl'
      exact hl'.imp (fun h => h.1)
    have h3 : ((coveredPages locations total_rows).filter (fun li =>
        requested.any (fun r => intervalIntersects li.2 r))).Pairwise
        (fun a b => a.1.offset < b.1.offset) :=
      h2.sublist (List.filter_sublist _)
    rw [List.pairwise_map]
    exact h3
  · intro requested' hperm
    have h1 : requested'.any (fun r =>
        decide (r.length = 0) || decide (total_rows < r.start + r.length)) =
      requested.any (fun r =>
        decide (r.length = 0) || decide (total_rows < r.start + r.length)) :=
      any_of_perm hperm _
    have h2 : (coveredPages locations total_rows).filter (fun li =>
        requested'.any (fun r => intervalIntersects li.2 r)) =
      (coveredPages locations total_rows).filter (fun li =>
        requested.any (fun r => intervalIntersects li.2 r)) :=
      List.filter_congr (fun a _ => any_of_perm hperm _)
    simp only [select_pages, h1, h2]

/-- C6 witness: the theorem applied to the worked example's page locations,
nine total rows, and the single requested interval of rows [2,4). -/
theorem select_pages_spec_witness :
    ∃ out, select_pages [⟨2, 2⟩] [locA, locB] 9 = .ok out ∧
      (∀ p : FilteredPage, p ∈ out ↔ ∃ i : Nat,
        [locA, locB][i]? = some p.location ∧
        p.rows = pageInterval [locA, locB] 9 i ∧
        ∃ r ∈ [Interval.mk 2 2],
          intervalIntersects (pageInterval [locA, locB] 9 i) r = true) ∧
      out.Pairwise (fun p q => p.location.offset < q.location.offset) ∧
      (∀ requested' : List Interval, requested'.Perm [⟨2, 2⟩] →
        select_pages requested' [locA, locB] 9 =
          select_pages [⟨2, 2⟩] [locA, locB] 9) :=
  select_pages_spec [⟨2, 2⟩] [locA, locB] 9 (by decide) (by decide)
    (by decide) (by decide)

end Parquet
